import Mathlib

/-!
Verification of the candle-analysis core of the plutus repository
(class Pair in plutus.py), shallowly embedded in Lean 4.

A candle record ("kline row") is embedded as a list of rationals: the
Binance API returns each kline as a list of at least six fields
(open time, open, high, low, close, volume, ...), and the code wraps the
price fields in Decimal before comparing, which is exact decimal
arithmetic, embedded here as the rationals.

Python-level partiality is modelled explicitly:
  - indexing data[i] with a possibly negative integer index is pyGet
    (negative indices read from the back, out of range is none - the
    IndexError branch that get_candle catches);
  - field access row[k] inside Decimal(...) can raise IndexError on a
    short row, so it is decField, valued in Except Unit;
  - list.index(v) can raise ValueError, so it is listIndex, valued in
    Except Unit;
  - every query method that performs field accesses is valued in
    Except Unit (Option _): the error is an uncaught Python exception,
    none is the method returning None.
-/

namespace Plutus

/-- One raw kline row: its fields as exact rationals. -/
abbrev Row := List ℚ

/-- Python list indexing xs[i] with the IndexError case as none:
nonnegative indices count from the front, negative indices from the
back, anything outside [-len, len) is out of range. -/
def pyGet {α : Type} (xs : List α) (i : ℤ) : Option α :=
  if 0 ≤ i then xs.get? i.toNat
  else if (xs.length : ℤ) + i < 0 then none
  else xs.get? ((xs.length : ℤ) + i).toNat

/-- Field access Decimal(row[k]): IndexError on a row with at most k
fields becomes Except.error. -/
def decField (r : Row) (k : ℕ) : Except Unit ℚ :=
  match r.get? k with
  | some v => Except.ok v
  | none => Except.error ()

/-- Total field read used in specification statements; under the
well-formedness bound k < r.length it agrees with decField. -/
def getField (r : Row) (k : ℕ) : ℚ :=
  (r.get? k).getD 0

/-- The list comprehension [Decimal(datum[k]) for datum in data]:
raises (error) at the first row missing field k. -/
def mapFields (data : List Row) (k : ℕ) : Except Unit (List ℚ) :=
  match data with
  | [] => Except.ok []
  | r :: rest => do
    let v ← decField r k
    let vs ← mapFields rest k
    Except.ok (v :: vs)

/-- Python truthiness of an optional list value: None and the empty
list are falsy, a nonempty list is truthy. -/
def truthy : Option Row → Bool
  | none => false
  | some r => !r.isEmpty

/-- The collapsing default of the pattern: if not arg, arg = d.
None and 0 both take the default. -/
def defaultArg (x : Option ℤ) (d : ℤ) : ℤ :=
  match x with
  | none => d
  | some v => if v = 0 then d else v

/-- Clamp one slice endpoint the way Python slicing does on a list of
length n: negative endpoints are offset from the back and clamped at 0,
nonnegative endpoints are clamped at n. -/
def sliceIdx (n : ℕ) (i : ℤ) : ℕ :=
  if i < 0 then ((n : ℤ) + i).toNat else min i.toNat n

/-- Python slice xs[a : b] for integer endpoints; it never raises. -/
def pySlice {α : Type} (xs : List α) (a b : ℤ) : List α :=
  (xs.drop (sliceIdx xs.length a)).take (sliceIdx xs.length b - sliceIdx xs.length a)

/-- Python max over a list, none on the empty list (the code always
guards the call with a nonemptiness test). -/
def pyMax (xs : List ℚ) : Option ℚ :=
  match xs with
  | [] => none
  | x :: rest => some (rest.foldl max x)

/-- Python min over a list, none on the empty list. -/
def pyMin (xs : List ℚ) : Option ℚ :=
  match xs with
  | [] => none
  | x :: rest => some (rest.foldl min x)

/-- Python list.index(v): index of the first occurrence of v, and a
ValueError (error) when v does not occur. -/
def listIndex (xs : List ℚ) (v : ℚ) : Except Unit ℕ :=
  match xs with
  | [] => Except.error ()
  | x :: rest =>
    if x = v then Except.ok 0
    else do
      let i ← listIndex rest v
      Except.ok (i + 1)

/-- The cached per-interval sequence built by the data property:
list(reversed(client.get_historical_klines(ticker, interval, start))).
The dict comprehension stores, for each interval key, the fetched rows
reversed; data.get(interval, []) then reads that entry back. -/
def intervalData (fetch : String → List Row) (interval : String) : List Row :=
  (fetch interval).reverse

/-- Pair.get_candle: data[index] with the IndexError caught to None. -/
def get_candle (data : List Row) (index : ℤ) : Option Row :=
  pyGet data index

/-- Pair.is_candle_bullish: Decimal(candle[4]) > Decimal(candle[1]) when
the candle resolves and is truthy, None otherwise. candle[4] is read
first, as in the source expression. -/
def is_candle_bullish (data : List Row) (index : ℤ) : Except Unit (Option Bool) :=
  match get_candle data index with
  | none => Except.ok none
  | some r =>
    if r.isEmpty then Except.ok none
    else do
      let c4 ← decField r 4
      let c1 ← decField r 1
      Except.ok (some (decide (c1 < c4)))

/-- Pair.is_candle_bearish: Decimal(candle[4]) < Decimal(candle[1]) when
the candle resolves and is truthy, None otherwise. -/
def is_candle_bearish (data : List Row) (index : ℤ) : Except Unit (Option Bool) :=
  match get_candle data index with
  | none => Except.ok none
  | some r =>
    if r.isEmpty then Except.ok none
    else do
      let c4 ← decField r 4
      let c1 ← decField r 1
      Except.ok (some (decide (c4 < c1)))

/-- Pair.get_highest_high. The highs of the full sequence are computed
first; then the defaults are applied (if not start_index / if not
count), the count is checked against the full length, the window is
sliced (Python list slicing never raises, so the except IndexError arm
of the source is dead), and the answer is full_highs.index(max(window_highs))
when the window is nonempty. -/
def get_highest_high (data : List Row) (start_index : Option ℤ) (count : Option ℤ) :
    Except Unit (Option ℕ) := do
  let highs ← mapFields data 2
  let si := defaultArg start_index 0
  let cnt := defaultArg count (data.length : ℤ)
  if (data.length : ℤ) < cnt then
    Except.ok none
  else
    let filtered := pySlice data si (si + cnt)
    let filteredHighs ← mapFields filtered 2
    match pyMax filteredHighs with
    | some m => do
      let i ← listIndex highs m
      Except.ok (some i)
    | none => Except.ok none

/-- Pair.get_lowest_low. Identical shape with lows (field 3) and min;
its start_index parameter is a plain integer defaulting to 0, and the
statement if not start_index then start_index = 0 is the identity on
integers, so it is elided. -/
def get_lowest_low (data : List Row) (start_index : ℤ) (count : Option ℤ) :
    Except Unit (Option ℕ) := do
  let lows ← mapFields data 3
  let si := start_index
  let cnt := defaultArg count (data.length : ℤ)
  if (data.length : ℤ) < cnt then
    Except.ok none
  else
    let filtered := pySlice data si (si + cnt)
    let filteredLows ← mapFields filtered 3
    match pyMin filteredLows with
    | some m => do
      let i ← listIndex lows m
      Except.ok (some i)
    | none => Except.ok none

/-- The loop of Pair.is_up_fractal over offsets offset, offset+1, ...
(fuel many of them). At each offset the two neighbours are looked up;
if the centre and both neighbours are truthy the lows are compared
(with the or of the source short-circuiting, so the right neighbour's
field is only read when the left comparison passes), otherwise the
whole check resolves to None. -/
def up_fractal_go (data : List Row) (candle : Option Row) (index : ℤ) :
    ℤ → ℕ → Except Unit (Option Bool)
  | _, 0 => Except.ok (some true)
  | offset, fuel + 1 =>
    let adjLeft := get_candle data (index + offset)
    let adjRight := get_candle data (index - offset)
    match candle, adjLeft, adjRight with
    | some c, some l, some r =>
      if c.isEmpty || l.isEmpty || r.isEmpty then Except.ok none
      else do
        let cl ← decField c 3
        let ll ← decField l 3
        if ll ≤ cl then Except.ok (some false)
        else do
          let rl ← decField r 3
          if rl ≤ cl then Except.ok (some false)
          else up_fractal_go data candle index (offset + 1) fuel
    | _, _, _ => Except.ok none

/-- Pair.is_up_fractal: resolve the centre candle, apply the default
count (if not count, so an explicit 0 also takes the default 3), reject
an invalid count (below 3 or even) as None, then run the offset loop
out to (count - 1) / 2 candles each side. The source computes the
radius as int((count - 1) / 2) with true division; for the odd counts
that pass the guard the quotient is an integer that the float holds
exactly (for magnitudes below 2 to the 53), embedded here as integer
division. -/
def is_up_fractal (data : List Row) (index : ℤ) (count : Option ℤ) :
    Except Unit (Option Bool) :=
  let candle := get_candle data index
  let cnt := defaultArg count 3
  if cnt < 3 ∨ cnt % 2 = 0 then Except.ok none
  else up_fractal_go data candle index 1 ((cnt - 1) / 2).toNat

/-- The loop of Pair.is_down_fractal: same shape as the up loop but on
the high price (field 2), returning False as soon as the centre's high
is less than or equal to a neighbour's high. -/
def down_fractal_go (data : List Row) (candle : Option Row) (index : ℤ) :
    ℤ → ℕ → Except Unit (Option Bool)
  | _, 0 => Except.ok (some true)
  | offset, fuel + 1 =>
    let adjLeft := get_candle data (index + offset)
    let adjRight := get_candle data (index - offset)
    match candle, adjLeft, adjRight with
    | some c, some l, some r =>
      if c.isEmpty || l.isEmpty || r.isEmpty then Except.ok none
      else do
        let ch ← decField c 2
        let lh ← decField l 2
        if ch ≤ lh then Except.ok (some false)
        else do
          let rh ← decField r 2
          if ch ≤ rh then Except.ok (some false)
          else down_fractal_go data candle index (offset + 1) fuel
    | _, _, _ => Except.ok none

/-- Pair.is_down_fractal: same structure as is_up_fractal, with the
down-loop on high prices. -/
def is_down_fractal (data : List Row) (index : ℤ) (count : Option ℤ) :
    Except Unit (Option Bool) :=
  let candle := get_candle data index
  let cnt := defaultArg count 3
  if cnt < 3 ∨ cnt % 2 = 0 then Except.ok none
  else down_fractal_go data candle index 1 ((cnt - 1) / 2).toNat

/-- The highs of a sequence, as a plain list of rationals. -/
def highsOf (data : List Row) : List ℚ :=
  data.map (fun r => getField r 2)

/-- The lows of a sequence, as a plain list of rationals. -/
def lowsOf (data : List Row) : List ℚ :=
  data.map (fun r => getField r 3)

/-- A well-formed cached sequence: every row has the at-least-six
fields of a kline record. -/
abbrev WF (data : List Row) : Prop :=
  ∀ r ∈ data, 6 ≤ r.length

/-- The row a candle lookup resolves to, with the empty row standing
for an unresolved lookup; used only in specification statements. -/
def rowAt (data : List Row) (i : ℤ) : Row :=
  (get_candle data i).getD []

/-- A three-candle series whose middle candle has the strictly lowest
low (an up fractal of width 3) and the strictly highest high. -/
def exUp3 : List Row := [[0, 0, 3, 5, 0, 0], [0, 0, 9, 1, 0, 0], [0, 0, 4, 6, 0, 0]]

/-- A two-candle series with increasing lows. -/
def exTwo : List Row := [[0, 0, 0, 1, 0, 0], [0, 0, 0, 2, 0, 0]]

/-- A two-candle series whose candles share the same high price and
the same low price. -/
def exTie : List Row := [[0, 0, 5, 7, 0, 0], [0, 0, 5, 7, 0, 0]]

/-- A single bullish candle: close 2 above open 1. -/
def exBullRow : Row := [0, 1, 9, 0, 2, 0]

/-- The one-candle series holding exBullRow. -/
def exBull : List Row := [exBullRow]

/-- A three-candle series whose middle candle has the strictly highest
high, flanked by strictly lower highs. -/
def exDownPeak : List Row := [[0, 0, 1, 0, 0, 0], [0, 0, 5, 0, 0, 0], [0, 0, 1, 0, 0, 0]]

/-- A kline record with open time 1 (the chronologically earliest). -/
def exAscA : Row := [1, 0, 0, 0, 0, 0]

/-- A kline record with open time 2 (the chronologically latest). -/
def exAscB : Row := [2, 0, 0, 0, 0, 0]

/-- A data source returning the two records in ascending open-time
order for every interval. -/
def exFetch : String → List Row := fun _ => [exAscA, exAscB]

lemma exBind_ok {α β : Type} (a : α) (f : α → Except Unit β) :
    (Except.ok a >>= f) = f a := rfl

lemma decField_ok (r : Row) (k : ℕ) (h : k < r.length) :
    decField r k = Except.ok (getField r k) := by
  unfold decField getField
  cases hg : r.get? k with
  | none =>
    rw [List.get?_eq_none] at hg
    omega
  | some v => simp [hg]

lemma mapFields_ok (data : List Row) (k : ℕ) (h : ∀ r ∈ data, k < r.length) :
    mapFields data k = Except.ok (data.map fun r => getField r k) := by
  induction data with
  | nil => rfl
  | cons r rest ih =>
    have hr : k < r.length := h r (List.mem_cons_self r rest)
    rw [mapFields, decField_ok r k hr, ih fun x hx => h x (List.mem_cons_of_mem r hx)]
    rfl

lemma get_candle_of_bounds (data : List Row) (i : ℤ) (h0 : 0 ≤ i)
    (hl : i < data.length) : ∃ r, get_candle data i = some r ∧ r ∈ data := by
  unfold get_candle pyGet
  rw [if_pos h0]
  cases hg : data.get? i.toNat with
  | none =>
    rw [List.get?_eq_none] at hg
    omega
  | some r => exact ⟨r, rfl, List.get?_mem hg⟩

lemma get_candle_mem (data : List Row) (i : ℤ) (r : Row)
    (h : get_candle data i = some r) : r ∈ data := by
  unfold get_candle pyGet at h
  split at h
  · exact List.get?_mem h
  · split at h
    · exact absurd h (by simp)
    · exact List.get?_mem h

lemma listIndex_spec (xs : List ℚ) (v : ℚ) (h : v ∈ xs) :
    ∃ i, listIndex xs v = Except.ok i ∧ xs.get? i = some v ∧
      ∀ j, j < i → xs.get? j ≠ some v := by
  induction xs with
  | nil => cases h
  | cons x rest ih =>
    by_cases hx : x = v
    · exact ⟨0, by simp [listIndex, hx], by simp [hx],
        fun j hj => absurd hj (Nat.not_lt_zero j)⟩
    · have hv : v ∈ rest := by
        rcases List.mem_cons.mp h with h1 | h1
        · exact absurd h1.symm hx
        · exact h1
      obtain ⟨i, h1, h2, h3⟩ := ih hv
      refine ⟨i + 1, ?_, by simpa using h2, ?_⟩
      · rw [listIndex, if_neg hx, h1]
        rfl
      · intro j hj
        cases j with
        | zero => simpa using hx
        | succ j' => simpa using h3 j' (by omega)

lemma le_foldl_max (xs : List ℚ) (a : ℚ) :
    a ≤ xs.foldl max a ∧ ∀ v ∈ xs, v ≤ xs.foldl max a := by
  induction xs generalizing a with
  | nil => simp
  | cons x rest ih =>
    obtain ⟨h1, h2⟩ := ih (max a x)
    refine ⟨le_trans (le_max_left a x) h1, ?_⟩
    intro v hv
    rcases List.mem_cons.mp hv with rfl | hv'
    · exact le_trans (le_max_right a v) h1
    · exact h2 v hv'

lemma foldl_max_mem (xs : List ℚ) (a : ℚ) :
    xs.foldl max a = a ∨ xs.foldl max a ∈ xs := by
  induction xs generalizing a with
  | nil => exact Or.inl rfl
  | cons x rest ih =>
    rcases ih (max a x) with h | h
    · rcases max_choice a x with hc | hc
      · exact Or.inl (by rw [List.foldl_cons, h, hc])
      · exact Or.inr (by rw [List.foldl_cons, h, hc]; exact List.mem_cons_self x rest)
    · exact Or.inr (List.mem_cons_of_mem x h)

lemma pyMax_spec (xs : List ℚ) (h : xs ≠ []) :
    ∃ m, pyMax xs = some m ∧ m ∈ xs ∧ ∀ v ∈ xs, v ≤ m := by
  match xs, h with
  | x :: rest, _ =>
    refine ⟨rest.foldl max x, rfl, ?_, ?_⟩
    · rcases foldl_max_mem rest x with h | h
      · rw [h]; exact List.mem_cons_self x rest
      · exact List.mem_cons_of_mem x h
    · intro v hv
      rcases List.mem_cons.mp hv with rfl | hv'
      · exact (le_foldl_max rest v).1
      · exact (le_foldl_max rest x).2 v hv'

lemma foldl_min_le (xs : List ℚ) (a : ℚ) :
    xs.foldl min a ≤ a ∧ ∀ v ∈ xs, xs.foldl min a ≤ v := by
  induction xs generalizing a with
  | nil => simp
  | cons x rest ih =>
    obtain ⟨h1, h2⟩ := ih (min a x)
    refine ⟨le_trans h1 (min_le_left a x), ?_⟩
    intro v hv
    rcases List.mem_cons.mp hv with rfl | hv'
    · exact le_trans h1 (min_le_right a v)
    · exact h2 v hv'

lemma foldl_min_mem (xs : List ℚ) (a : ℚ) :
    xs.foldl min a = a ∨ xs.foldl min a ∈ xs := by
  induction xs generalizing a with
  | nil => exact Or.inl rfl
  | cons x rest ih =>
    rcases ih (min a x) with h | h
    · rcases min_choice a x with hc | hc
      · exact Or.inl (by rw [List.foldl_cons, h, hc])
      · exact Or.inr (by rw [List.foldl_cons, h, hc]; exact List.mem_cons_self x rest)
    · exact Or.inr (List.mem_cons_of_mem x h)

lemma pyMin_spec (xs : List ℚ) (h : xs ≠ []) :
    ∃ m, pyMin xs = some m ∧ m ∈ xs ∧ ∀ v ∈ xs, m ≤ v := by
  match xs, h with
  | x :: rest, _ =>
    refine ⟨rest.foldl min x, rfl, ?_, ?_⟩
    · rcases foldl_min_mem rest x with h | h
      · rw [h]; exact List.mem_cons_self x rest
      · exact List.mem_cons_of_mem x h
    · intro v hv
      rcases List.mem_cons.mp hv with rfl | hv'
      · exact (foldl_min_le rest v).1
      · exact (foldl_min_le rest x).2 v hv'

lemma pySlice_subset {α : Type} (xs : List α) (a b : ℤ) :
    ∀ x ∈ pySlice xs a b, x ∈ xs := by
  intro x hx
  unfold pySlice at hx
  exact List.drop_subset _ xs (List.take_subset _ _ hx)

lemma pySlice_ne_nil {α : Type} (xs : List α) (a cnt : ℤ) (ha : 0 ≤ a)
    (haLen : a < xs.length) (hcnt : 0 < cnt) : pySlice xs a (a + cnt) ≠ [] := by
  apply List.ne_nil_of_length_pos
  unfold pySlice sliceIdx
  rw [List.length_take, List.length_drop, if_neg (by omega : ¬ a < 0),
    if_neg (by omega : ¬ a + cnt < 0)]
  omega

lemma defaultArg_some_zero (v : ℤ) : defaultArg (some v) 0 = v := by
  show (if v = 0 then (0 : ℤ) else v) = v
  split <;> omega

lemma defaultArg_some_ne (v d : ℤ) (h : v ≠ 0) : defaultArg (some v) d = v := by
  show (if v = 0 then d else v) = v
  rw [if_neg h]

lemma isEmpty_false_of_len {r : Row} (h : 6 ≤ r.length) : r.isEmpty = false := by
  cases r with
  | nil => simp at h
  | cons x t => rfl

lemma is_candle_bullish_some (data : List Row) (index : ℤ) (c : Row)
    (hc : get_candle data index = some c) (hlen : 6 ≤ c.length) :
    is_candle_bullish data index =
      Except.ok (some (decide (getField c 1 < getField c 4))) := by
  unfold is_candle_bullish
  rw [hc]
  simp only [isEmpty_false_of_len hlen, Bool.false_eq_true, if_false,
    decField_ok c 4 (by omega), decField_ok c 1 (by omega), exBind_ok]

lemma is_candle_bearish_some (data : List Row) (index : ℤ) (c : Row)
    (hc : get_candle data index = some c) (hlen : 6 ≤ c.length) :
    is_candle_bearish data index =
      Except.ok (some (decide (getField c 4 < getField c 1))) := by
  unfold is_candle_bearish
  rw [hc]
  simp only [isEmpty_false_of_len hlen, Bool.false_eq_true, if_false,
    decField_ok c 4 (by omega), decField_ok c 1 (by omega), exBind_ok]

/-- C5 counterexample: with an explicitly supplied count of 0, the
fractal check does not return None; the falsy 0 takes the default
width 3, and on a genuine width-3 up fractal the result is True. -/
theorem C5_count_zero_counterexample :
    is_up_fractal exUp3 1 (some 0) = Except.ok (some true) ∧
    (Except.ok (some true) : Except Unit (Option Bool)) ≠ Except.ok none :=
  ⟨rfl, by simp⟩

/-- C5 (amended): for every explicitly supplied nonzero count that is
even or less than 3, is_up_fractal and is_down_fractal return None
regardless of the cached data; an explicit count of 0 instead falls
back to the default width 3. -/
theorem C5_invalid_count (data : List Row) (index cnt : ℤ) (h0 : cnt ≠ 0)
    (hbad : cnt % 2 = 0 ∨ cnt < 3) :
    is_up_fractal data index (some cnt) = Except.ok none ∧
    is_down_fractal data index (some cnt) = Except.ok none := by
  have hc : cnt < 3 ∨ cnt % 2 = 0 := by omega
  simp only [is_up_fractal, is_down_fractal, defaultArg_some_ne cnt 3 h0, if_pos hc]
  exact ⟨trivial, trivial⟩

/-- C5 witness: count 4 on concrete data. -/
theorem C5_witness :
    ((4 : ℤ) ≠ 0 ∧ ((4 : ℤ) % 2 = 0 ∨ (4 : ℤ) < 3)) ∧
    (is_up_fractal exUp3 1 (some 4) = Except.ok none ∧
      is_down_fractal exUp3 1 (some 4) = Except.ok none) :=
  ⟨⟨by decide, Or.inl (by decide)⟩,
    C5_invalid_count exUp3 1 4 (by decide) (Or.inl (by decide))⟩

/-- C7: whenever the supplied count strictly exceeds the length of the
cached sequence, get_highest_high and get_lowest_low return None; the
window is not clamped to the available data. -/
theorem C7_count_exceeds_length (data : List Row) (hwf : WF data)
    (siOpt : Option ℤ) (si cnt : ℤ) (h : (data.length : ℤ) < cnt) :
    get_highest_high data siOpt (some cnt) = Except.ok none ∧
    get_lowest_low data si (some cnt) = Except.ok none := by
  have hw2 : ∀ r ∈ data, 2 < r.length := fun r hr => by have := hwf r hr; omega
  have hw3 : ∀ r ∈ data, 3 < r.length := fun r hr => by have := hwf r hr; omega
  have hcnt : cnt ≠ 0 := by omega
  constructor
  · unfold get_highest_high
    rw [mapFields_ok data 2 hw2, exBind_ok, defaultArg_some_ne cnt _ hcnt, if_pos h]
  · unfold get_lowest_low
    rw [mapFields_ok data 3 hw3, exBind_ok, defaultArg_some_ne cnt _ hcnt, if_pos h]

/-- C7 witness: count 100 over a three-candle series. -/
theorem C7_witness :
    (WF exUp3 ∧ (exUp3.length : ℤ) < 100) ∧
    (get_highest_high exUp3 (some 0) (some 100) = Except.ok none ∧
      get_lowest_low exUp3 0 (some 100) = Except.ok none) :=
  ⟨⟨by decide, by decide⟩,
    C7_count_exceeds_length exUp3 (by decide) (some 0) 0 100 (by decide)⟩

/-- C8: on a resolvable well-formed candle, is_candle_bullish decides
close above open and is_candle_bearish decides close below open, the
two are never both true and are both false on equal open and close;
on an unresolvable candle both return None. -/
theorem C8_bullish_bearish (data : List Row) (index : ℤ) :
    (∀ c, get_candle data index = some c → 6 ≤ c.length →
      is_candle_bullish data index =
        Except.ok (some (decide (getField c 1 < getField c 4))) ∧
      is_candle_bearish data index =
        Except.ok (some (decide (getField c 4 < getField c 1))) ∧
      ¬(getField c 1 < getField c 4 ∧ getField c 4 < getField c 1) ∧
      (getField c 1 = getField c 4 →
        is_candle_bullish data index = Except.ok (some false) ∧
        is_candle_bearish data index = Except.ok (some false))) ∧
    (get_candle data index = none →
      is_candle_bullish data index = Except.ok none ∧
      is_candle_bearish data index = Except.ok none) := by
  constructor
  · intro c hc hlen
    refine ⟨is_candle_bullish_some data index c hc hlen,
      is_candle_bearish_some data index c hc hlen, ?_, ?_⟩
    · rintro ⟨ha, hb⟩
      exact absurd (lt_trans ha hb) (lt_irrefl _)
    · intro he
      rw [is_candle_bullish_some data index c hc hlen,
        is_candle_bearish_some data index c hc hlen, he]
      simp
  · intro hc
    constructor
    · unfold is_candle_bullish
      rw [hc]
    · unfold is_candle_bearish
      rw [hc]

/-- C8 witness: the single bullish candle. -/
theorem C8_witness :
    is_candle_bullish exBull 0 =
      Except.ok (some (decide (getField exBullRow 1 < getField exBullRow 4))) ∧
    is_candle_bearish exBull 0 =
      Except.ok (some (decide (getField exBullRow 4 < getField exBullRow 1))) :=
  ⟨((C8_bullish_bearish exBull 0).1 exBullRow rfl (by decide)).1,
    ((C8_bullish_bearish exBull 0).1 exBullRow rfl (by decide)).2.1⟩

/-- C10: negative indices within [-length, -1] resolve end-relatively
to the candle at position length + i, and get_candle returns None
exactly when the index is at least the length or below -length. -/
theorem C10_negative_indexing (data : List Row) (i : ℤ) :
    ((-(data.length : ℤ) ≤ i ∧ i ≤ -1) →
      get_candle data i = data.get? ((data.length : ℤ) + i).toNat ∧
      (get_candle data i).isSome = true) ∧
    (get_candle data i = none ↔
      ((data.length : ℤ) ≤ i ∨ i < -(data.length : ℤ))) := by
  constructor
  · rintro ⟨h1, h2⟩
    have h0 : ¬ (0 ≤ i) := by omega
    have hlen : ¬ ((data.length : ℤ) + i < 0) := by omega
    constructor
    · unfold get_candle pyGet
      rw [if_neg h0, if_neg hlen]
    · unfold get_candle pyGet
      rw [if_neg h0, if_neg hlen]
      cases hg : data.get? ((data.length : ℤ) + i).toNat with
      | none =>
        rw [List.get?_eq_none] at hg
        omega
      | some r => rfl
  · unfold get_candle pyGet
    by_cases h0 : 0 ≤ i
    · rw [if_pos h0]
      constructor
      · intro h
        rw [List.get?_eq_none] at h
        omega
      · intro h
        rw [List.get?_eq_none]
        omega
    · by_cases h2 : (data.length : ℤ) + i < 0
      · rw [if_neg h0, if_pos h2]
        constructor
        · intro _
          omega
        · intro _
          rfl
      · rw [if_neg h0, if_neg h2]
        constructor
        · intro h
          rw [List.get?_eq_none] at h
          omega
        · intro h
          exfalso
          omega

lemma up_go_spec (data : List Row) (hwf : WF data) (c : Row) (hcmem : c ∈ data) :
    ∀ (fuel : ℕ) (index off : ℤ), 1 ≤ off →
      (∀ k : ℕ, k < fuel → 0 ≤ index - (off + k) ∧ index + (off + k) < data.length) →
      up_fractal_go data (some c) index off fuel =
        Except.ok (some (decide (∀ k : ℕ, k < fuel →
          getField c 3 < getField (rowAt data (index + (off + k))) 3 ∧
          getField c 3 < getField (rowAt data (index - (off + k))) 3))) := by
  intro fuel
  induction fuel with
  | zero =>
    intro index off hoff hb
    have hd : decide (∀ k : ℕ, k < 0 →
        getField c 3 < getField (rowAt data (index + (off + k))) 3 ∧
        getField c 3 < getField (rowAt data (index - (off + k))) 3) = true :=
      decide_eq_true fun k hk => absurd hk (Nat.not_lt_zero k)
    rw [hd]
    rfl
  | succ n ih =>
    intro index off hoff hb
    have hb0 := hb 0 (Nat.succ_pos n)
    have hcast0 : ((0 : ℕ) : ℤ) = 0 := rfl
    rw [hcast0, add_zero] at hb0
    have hL1 : 0 ≤ index + off := by omega
    have hL2 : index + off < data.length := hb0.2
    have hR1 : 0 ≤ index - off := hb0.1
    have hR2 : index - off < data.length := by omega
    obtain ⟨l, hlres, hlmem⟩ := get_candle_of_bounds data (index + off) hL1 hL2
    obtain ⟨r, hrres, hrmem⟩ := get_candle_of_bounds data (index - off) hR1 hR2
    have hclen := hwf c hcmem
    have hllen := hwf l hlmem
    have hrlen := hwf r hrmem
    have hrowL : rowAt data (index + off) = l := by
      unfold rowAt
      rw [hlres]
      rfl
    have hrowR : rowAt data (index - off) = r := by
      unfold rowAt
      rw [hrres]
      rfl
    simp only [up_fractal_go, hlres, hrres, isEmpty_false_of_len hclen,
      isEmpty_false_of_len hllen, isEmpty_false_of_len hrlen, Bool.or_self,
      Bool.or_false, Bool.false_eq_true, if_false,
      decField_ok c 3 (by omega), decField_ok l 3 (by omega),
      decField_ok r 3 (by omega), exBind_ok]
    by_cases h1 : getField l 3 ≤ getField c 3
    · rw [if_pos h1]
      have hd : decide (∀ k : ℕ, k < n + 1 →
          getField c 3 < getField (rowAt data (index + (off + k))) 3 ∧
          getField c 3 < getField (rowAt data (index - (off + k))) 3) = false := by
        rw [decide_eq_false_iff_not]
        intro hall
        have h0 := (hall 0 (Nat.succ_pos n)).1
        rw [hcast0, add_zero, hrowL] at h0
        exact absurd h0 (not_lt.mpr h1)
      rw [hd]
    · by_cases h2 : getField r 3 ≤ getField c 3
      · rw [if_neg h1, if_pos h2]
        have hd : decide (∀ k : ℕ, k < n + 1 →
            getField c 3 < getField (rowAt data (index + (off + k))) 3 ∧
            getField c 3 < getField (rowAt data (index - (off + k))) 3) = false := by
          rw [decide_eq_false_iff_not]
          intro hall
          have h0 := (hall 0 (Nat.succ_pos n)).2
          rw [hcast0, add_zero, hrowR] at h0
          exact absurd h0 (not_lt.mpr h2)
        rw [hd]
      · rw [if_neg h1, if_neg h2]
        have hbs : ∀ k : ℕ, k < n →
            0 ≤ index - ((off + 1) + k) ∧ index + ((off + 1) + k) < data.length := by
          intro k hk
          have := hb (k + 1) (by omega)
          have e : off + ((k : ℤ) + 1) = (off + 1) + k := by ring
          push_cast at this
          constructor <;> omega
        rw [ih index (off + 1) (by omega) hbs]
        have hiff : (∀ k : ℕ, k < n →
            getField c 3 < getField (rowAt data (index + ((off + 1) + k))) 3 ∧
            getField c 3 < getField (rowAt data (index - ((off + 1) + k))) 3) ↔
            (∀ k : ℕ, k < n + 1 →
            getField c 3 < getField (rowAt data (index + (off + k))) 3 ∧
            getField c 3 < getField (rowAt data (index - (off + k))) 3) := by
          constructor
          · intro hB k hk
            cases k with
            | zero =>
              rw [hcast0, add_zero, hrowL, hrowR]
              exact ⟨not_le.mp h1, not_le.mp h2⟩
            | succ j =>
              have e : off + ((j : ℤ) + 1) = (off + 1) + j := by ring
              have hj := hB j (by omega)
              push_cast
              rw [e]
              exact hj
          · intro hA k hk
            have hj := hA (k + 1) (by omega)
            have e : off + ((k : ℤ) + 1) = (off + 1) + k := by ring
            push_cast at hj
            rw [e] at hj
            exact hj
        rw [decide_eq_decide.mpr hiff]

/-- C3 counterexample: a source in chronological ascending order is
reversed by the data property, so get_candle(interval, 0) is the
record with the latest open time, not the earliest one. -/
theorem C3_counterexample :
    List.Pairwise (fun a b => getField a 0 < getField b 0) (exFetch "1h") ∧
    get_candle (intervalData exFetch "1h") 0 = some exAscB ∧
    exAscA ∈ exFetch "1h" ∧ getField exAscA 0 < getField exAscB 0 :=
  ⟨by decide, rfl, by decide, by decide⟩

/-- C3 (amended): when the data source returns records in strictly
ascending open-time order, the cached sequence is that list reversed,
so for nonempty data get_candle(interval, 0) resolves to a fetched
record whose open time is the largest, i.e. the chronologically latest
record. -/
theorem C3_reversed_cache (fetch : String → List Row) (interval : String)
    (hasc : List.Pairwise (fun a b => getField a 0 < getField b 0) (fetch interval))
    (hne : fetch interval ≠ []) :
    ∃ c, get_candle (intervalData fetch interval) 0 = some c ∧
      c ∈ fetch interval ∧
      ∀ r ∈ fetch interval, getField r 0 ≤ getField c 0 := by
  have hrev : (fetch interval).reverse ≠ [] := by simpa using hne
  obtain ⟨c, t, hct⟩ := List.exists_cons_of_ne_nil hrev
  have hp : (fetch interval).reverse.Pairwise
      (fun a b => getField b 0 < getField a 0) := by
    rw [List.pairwise_reverse]
    exact hasc
  rw [hct] at hp
  have hhead : ∀ r ∈ t, getField r 0 < getField c 0 := (List.pairwise_cons.mp hp).1
  refine ⟨c, ?_, ?_, ?_⟩
  · show pyGet (fetch interval).reverse 0 = some c
    rw [hct]
    rfl
  · have hm : c ∈ (fetch interval).reverse := by
      rw [hct]
      exact List.mem_cons_self c t
    exact List.mem_reverse.mp hm
  · intro r hr
    have hm : r ∈ (fetch interval).reverse := List.mem_reverse.mpr hr
    rw [hct] at hm
    rcases List.mem_cons.mp hm with rfl | h
    · exact le_refl _
    · exact le_of_lt (hhead r h)

/-- C3 witness: the two-record ascending source. -/
theorem C3_witness :
    (List.Pairwise (fun a b => getField a 0 < getField b 0) (exFetch "1h") ∧
      exFetch "1h" ≠ []) ∧
    (∃ c, get_candle (intervalData exFetch "1h") 0 = some c ∧
      c ∈ exFetch "1h" ∧ ∀ r ∈ exFetch "1h", getField r 0 ≤ getField c 0) :=
  ⟨⟨by decide, by decide⟩, C3_reversed_cache exFetch "1h" (by decide) (by decide)⟩

lemma down_go_spec (data : List Row) (hwf : WF data) (c : Row) (hcmem : c ∈ data) :
    ∀ (fuel : ℕ) (index off : ℤ), 1 ≤ off →
      (∀ k : ℕ, k < fuel → 0 ≤ index - (off + k) ∧ index + (off + k) < data.length) →
      down_fractal_go data (some c) index off fuel =
        Except.ok (some (decide (∀ k : ℕ, k < fuel →
          getField (rowAt data (index + (off + k))) 2 < getField c 2 ∧
          getField (rowAt data (index - (off + k))) 2 < getField c 2))) := by
  intro fuel
  induction fuel with
  | zero =>
    intro index off hoff hb
    have hd : decide (∀ k : ℕ, k < 0 →
        getField (rowAt data (index + (off + k))) 2 < getField c 2 ∧
        getField (rowAt data (index - (off + k))) 2 < getField c 2) = true :=
      decide_eq_true fun k hk => absurd hk (Nat.not_lt_zero k)
    rw [hd]
    rfl
  | succ n ih =>
    intro index off hoff hb
    have hb0 := hb 0 (Nat.succ_pos n)
    have hcast0 : ((0 : ℕ) : ℤ) = 0 := rfl
    rw [hcast0, add_zero] at hb0
    have hL1 : 0 ≤ index + off := by omega
    have hL2 : index + off < data.length := hb0.2
    have hR1 : 0 ≤ index - off := hb0.1
    have hR2 : index - off < data.length := by omega
    obtain ⟨l, hlres, hlmem⟩ := get_candle_of_bounds data (index + off) hL1 hL2
    obtain ⟨r, hrres, hrmem⟩ := get_candle_of_bounds data (index - off) hR1 hR2
    have hclen := hwf c hcmem
    have hllen := hwf l hlmem
    have hrlen := hwf r hrmem
    have hrowL : rowAt data (index + off) = l := by
      unfold rowAt
      rw [hlres]
      rfl
    have hrowR : rowAt data (index - off) = r := by
      unfold rowAt
      rw [hrres]
      rfl
    simp only [down_fractal_go, hlres, hrres, isEmpty_false_of_len hclen,
      isEmpty_false_of_len hllen, isEmpty_false_of_len hrlen, Bool.or_self,
      Bool.or_false, Bool.false_eq_true, if_false,
      decField_ok c 2 (by omega), decField_ok l 2 (by omega),
      decField_ok r 2 (by omega), exBind_ok]
    by_cases h1 : getField c 2 ≤ getField l 2
    · rw [if_pos h1]
      have hd : decide (∀ k : ℕ, k < n + 1 →
          getField (rowAt data (index + (off + k))) 2 < getField c 2 ∧
          getField (rowAt data (index - (off + k))) 2 < getField c 2) = false := by
        rw [decide_eq_false_iff_not]
        intro hall
        have h0 := (hall 0 (Nat.succ_pos n)).1
        rw [hcast0, add_zero, hrowL] at h0
        exact absurd h0 (not_lt.mpr h1)
      rw [hd]
    · by_cases h2 : getField c 2 ≤ getField r 2
      · rw [if_neg h1, if_pos h2]
        have hd : decide (∀ k : ℕ, k < n + 1 →
            getField (rowAt data (index + (off + k))) 2 < getField c 2 ∧
            getField (rowAt data (index - (off + k))) 2 < getField c 2) = false := by
          rw [decide_eq_false_iff_not]
          intro hall
          have h0 := (hall 0 (Nat.succ_pos n)).2
          rw [hcast0, add_zero, hrowR] at h0
          exact absurd h0 (not_lt.mpr h2)
        rw [hd]
      · rw [if_neg h1, if_neg h2]
        have hbs : ∀ k : ℕ, k < n →
            0 ≤ index - ((off + 1) + k) ∧ index + ((off + 1) + k) < data.length := by
          intro k hk
          have := hb (k + 1) (by omega)
          push_cast at this
          constructor <;> omega
        rw [ih index (off + 1) (by omega) hbs]
        have hiff : (∀ k : ℕ, k < n →
            getField (rowAt data (index + ((off + 1) + k))) 2 < getField c 2 ∧
            getField (rowAt data (index - ((off + 1) + k))) 2 < getField c 2) ↔
            (∀ k : ℕ, k < n + 1 →
            getField (rowAt data (index + (off + k))) 2 < getField c 2 ∧
            getField (rowAt data (index - (off + k))) 2 < getField c 2) := by
          constructor
          · intro hB k hk
            cases k with
            | zero =>
              rw [hcast0, add_zero, hrowL, hrowR]
              exact ⟨not_le.mp h1, not_le.mp h2⟩
            | succ j =>
              have e : off + ((j : ℤ) + 1) = (off + 1) + j := by ring
              have hj := hB j (by omega)
              push_cast
              rw [e]
              exact hj
          · intro hA k hk
            have hj := hA (k + 1) (by omega)
            have e : off + ((k : ℤ) + 1) = (off + 1) + k := by ring
            push_cast at hj
            rw [e] at hj
            exact hj
        rw [decide_eq_decide.mpr hiff]

/-- C6: with a valid odd width at least 3 and the centre candle and all
required neighbours in bounds, is_up_fractal returns a boolean that is
True exactly when, at every offset out to the radius, both neighbours
have a strictly greater low than the centre candle's low. -/
theorem C6_up_fractal (data : List Row) (hwf : WF data) (index cnt : ℤ)
    (hcnt3 : 3 ≤ cnt) (hodd : cnt % 2 = 1)
    (hbounds : ∀ o : ℤ, 1 ≤ o → o ≤ (cnt - 1) / 2 →
      0 ≤ index - o ∧ index + o < data.length) :
    ∃ b, is_up_fractal data index (some cnt) = Except.ok (some b) ∧
      (b = true ↔ ∀ o : ℤ, 1 ≤ o → o ≤ (cnt - 1) / 2 →
        getField (rowAt data index) 3 < getField (rowAt data (index + o)) 3 ∧
        getField (rowAt data index) 3 < getField (rowAt data (index - o)) 3) := by
  have hrad : 1 ≤ (cnt - 1) / 2 := by omega
  have hc1 := hbounds 1 le_rfl hrad
  obtain ⟨c, hcres, hcmem⟩ := get_candle_of_bounds data index (by omega) (by omega)
  have hrowC : rowAt data index = c := by
    unfold rowAt
    rw [hcres]
    rfl
  have hguard : ¬ (cnt < 3 ∨ cnt % 2 = 0) := by omega
  have hfuel : ∀ k : ℕ, k < ((cnt - 1) / 2).toNat →
      0 ≤ index - (1 + k) ∧ index + (1 + k) < data.length := by
    intro k hk
    exact hbounds (1 + k) (by omega) (by omega)
  refine ⟨decide (∀ k : ℕ, k < ((cnt - 1) / 2).toNat →
      getField c 3 < getField (rowAt data (index + (1 + k))) 3 ∧
      getField c 3 < getField (rowAt data (index - (1 + k))) 3), ?_, ?_⟩
  · simp only [is_up_fractal, hcres, defaultArg_some_ne cnt 3 (by omega),
      if_neg hguard]
    exact up_go_spec data hwf c hcmem ((cnt - 1) / 2).toNat index 1 le_rfl hfuel
  · rw [decide_eq_true_eq, hrowC]
    constructor
    · intro hk o h1 h2
      have hlt : (o - 1).toNat < ((cnt - 1) / 2).toNat := by omega
      have := hk (o - 1).toNat hlt
      rw [show (1 : ℤ) + ((o - 1).toNat : ℤ) = o by omega] at this
      exact this
    · intro ho k hk
      exact ho (1 + k) (by omega) (by omega)

/-- C6 witness: the width-3 up fractal in the middle of exUp3. -/
theorem C6_witness :
    (WF exUp3 ∧ (3 : ℤ) ≤ 3 ∧ (3 : ℤ) % 2 = 1) ∧
    (∃ b, is_up_fractal exUp3 1 (some 3) = Except.ok (some b) ∧
      (b = true ↔ ∀ o : ℤ, 1 ≤ o → o ≤ ((3 : ℤ) - 1) / 2 →
        getField (rowAt exUp3 1) 3 < getField (rowAt exUp3 (1 + o)) 3 ∧
        getField (rowAt exUp3 1) 3 < getField (rowAt exUp3 (1 - o)) 3)) :=
  ⟨⟨by decide, by decide, by decide⟩,
    C6_up_fractal exUp3 (by decide) 1 3 (by decide) (by decide)
      (by
        intro o h1 h2
        have hl : (exUp3.length : ℤ) = 3 := by decide
        rw [hl]
        omega)⟩

/-- C2 counterexample: on highs 1, 5, 1 the centre's high is strictly
greater than both neighbours' highs, the claimed strictly-lesser
condition fails, yet is_down_fractal returns True rather than False. -/
theorem C2_counterexample :
    is_down_fractal exDownPeak 1 (some 3) = Except.ok (some true) ∧
    ¬ (getField (rowAt exDownPeak 1) 2 < getField (rowAt exDownPeak 2) 2) :=
  ⟨rfl, by decide⟩

/-- C2 (amended): with a valid odd width at least 3 and the centre
candle and all required neighbours in bounds, is_down_fractal returns
a boolean that is True exactly when, at every offset out to the
radius, both neighbours have a strictly lower high than the centre
candle's high (the centre is a local maximum of highs, the mirror of
the up fractal). -/
theorem C2_down_fractal (data : List Row) (hwf : WF data) (index cnt : ℤ)
    (hcnt3 : 3 ≤ cnt) (hodd : cnt % 2 = 1)
    (hbounds : ∀ o : ℤ, 1 ≤ o → o ≤ (cnt - 1) / 2 →
      0 ≤ index - o ∧ index + o < data.length) :
    ∃ b, is_down_fractal data index (some cnt) = Except.ok (some b) ∧
      (b = true ↔ ∀ o : ℤ, 1 ≤ o → o ≤ (cnt - 1) / 2 →
        getField (rowAt data (index + o)) 2 < getField (rowAt data index) 2 ∧
        getField (rowAt data (index - o)) 2 < getField (rowAt data index) 2) := by
  have hrad : 1 ≤ (cnt - 1) / 2 := by omega
  have hc1 := hbounds 1 le_rfl hrad
  obtain ⟨c, hcres, hcmem⟩ := get_candle_of_bounds data index (by omega) (by omega)
  have hrowC : rowAt data index = c := by
    unfold rowAt
    rw [hcres]
    rfl
  have hguard : ¬ (cnt < 3 ∨ cnt % 2 = 0) := by omega
  have hfuel : ∀ k : ℕ, k < ((cnt - 1) / 2).toNat →
      0 ≤ index - (1 + k) ∧ index + (1 + k) < data.length := by
    intro k hk
    exact hbounds (1 + k) (by omega) (by omega)
  refine ⟨decide (∀ k : ℕ, k < ((cnt - 1) / 2).toNat →
      getField (rowAt data (index + (1 + k))) 2 < getField c 2 ∧
      getField (rowAt data (index - (1 + k))) 2 < getField c 2), ?_, ?_⟩
  · simp only [is_down_fractal, hcres, defaultArg_some_ne cnt 3 (by omega),
      if_neg hguard]
    exact down_go_spec data hwf c hcmem ((cnt - 1) / 2).toNat index 1 le_rfl hfuel
  · rw [decide_eq_true_eq, hrowC]
    constructor
    · intro hk o h1 h2
      have hlt : (o - 1).toNat < ((cnt - 1) / 2).toNat := by omega
      have := hk (o - 1).toNat hlt
      rw [show (1 : ℤ) + ((o - 1).toNat : ℤ) = o by omega] at this
      exact this
    · intro ho k hk
      exact ho (1 + k) (by omega) (by omega)

/-- C2 witness: the width-3 peak of highs in the middle of exDownPeak. -/
theorem C2_witness :
    (WF exDownPeak ∧ (3 : ℤ) ≤ 3 ∧ (3 : ℤ) % 2 = 1) ∧
    (∃ b, is_down_fractal exDownPeak 1 (some 3) = Except.ok (some b) ∧
      (b = true ↔ ∀ o : ℤ, 1 ≤ o → o ≤ ((3 : ℤ) - 1) / 2 →
        getField (rowAt exDownPeak (1 + o)) 2 < getField (rowAt exDownPeak 1) 2 ∧
        getField (rowAt exDownPeak (1 - o)) 2 < getField (rowAt exDownPeak 1) 2)) :=
  ⟨⟨by decide, by decide, by decide⟩,
    C2_down_fractal exDownPeak (by decide) 1 3 (by decide) (by decide)
      (by
        intro o h1 h2
        have hl : (exDownPeak.length : ℤ) = 3 := by decide
        rw [hl]
        omega)⟩

lemma up_go_none (data : List Row) (hwf : WF data) (c : Row) (hcmem : c ∈ data) :
    ∀ (k fuel : ℕ) (index off : ℤ), k < fuel →
      (get_candle data (index + (off + k)) = none ∨
        get_candle data (index - (off + k)) = none) →
      (∀ j : ℕ, j < k → ∃ l r,
        get_candle data (index + (off + j)) = some l ∧
        get_candle data (index - (off + j)) = some r ∧
        getField c 3 < getField l 3 ∧ getField c 3 < getField r 3) →
      up_fractal_go data (some c) index off fuel = Except.ok none := by
  intro k
  induction k with
  | zero =>
    intro fuel index off hk hfail hprev
    cases fuel with
    | zero => omega
    | succ m =>
      have hcast0 : ((0 : ℕ) : ℤ) = 0 := rfl
      rw [hcast0, add_zero] at hfail
      rcases hfail with hf | hf
      · simp only [up_fractal_go, hf]
      · cases hl : get_candle data (index + off) with
        | none => simp only [up_fractal_go, hl]
        | some l => simp only [up_fractal_go, hl, hf]
  | succ kk ih =>
    intro fuel index off hk hfail hprev
    cases fuel with
    | zero => omega
    | succ m =>
      obtain ⟨l, r, hlres, hrres, hcl, hcr⟩ := hprev 0 (Nat.succ_pos kk)
      have hcast0 : ((0 : ℕ) : ℤ) = 0 := rfl
      rw [hcast0, add_zero] at hlres hrres
      have hllen := hwf l (get_candle_mem data _ l hlres)
      have hrlen := hwf r (get_candle_mem data _ r hrres)
      have hclen := hwf c hcmem
      simp only [up_fractal_go, hlres, hrres, isEmpty_false_of_len hclen,
        isEmpty_false_of_len hllen, isEmpty_false_of_len hrlen, Bool.or_self,
        Bool.or_false, Bool.false_eq_true, if_false,
        decField_ok c 3 (by omega), decField_ok l 3 (by omega),
        decField_ok r 3 (by omega), exBind_ok]
      rw [if_neg (not_le.mpr hcl), if_neg (not_le.mpr hcr)]
      apply ih m index (off + 1) (by omega)
      · have e : (off + 1) + (kk : ℤ) = off + ((kk : ℤ) + 1) := by ring
        rw [e]
        push_cast at hfail
        exact hfail
      · intro j hj
        obtain ⟨l2, r2, h1, h2, h3, h4⟩ := hprev (j + 1) (by omega)
        refine ⟨l2, r2, ?_, ?_, h3, h4⟩
        · have e : (off + 1) + (j : ℤ) = off + ((j : ℤ) + 1) := by ring
          rw [e]
          push_cast at h1
          exact h1
        · have e : (off + 1) + (j : ℤ) = off + ((j : ℤ) + 1) := by ring
          rw [e]
          push_cast at h2
          exact h2

lemma down_go_none (data : List Row) (hwf : WF data) (c : Row) (hcmem : c ∈ data) :
    ∀ (k fuel : ℕ) (index off : ℤ), k < fuel →
      (get_candle data (index + (off + k)) = none ∨
        get_candle data (index - (off + k)) = none) →
      (∀ j : ℕ, j < k → ∃ l r,
        get_candle data (index + (off + j)) = some l ∧
        get_candle data (index - (off + j)) = some r ∧
        getField l 2 < getField c 2 ∧ getField r 2 < getField c 2) →
      down_fractal_go data (some c) index off fuel = Except.ok none := by
  intro k
  induction k with
  | zero =>
    intro fuel index off hk hfail hprev
    cases fuel with
    | zero => omega
    | succ m =>
      have hcast0 : ((0 : ℕ) : ℤ) = 0 := rfl
      rw [hcast0, add_zero] at hfail
      rcases hfail with hf | hf
      · simp only [down_fractal_go, hf]
      · cases hl : get_candle data (index + off) with
        | none => simp only [down_fractal_go, hl]
        | some l => simp only [down_fractal_go, hl, hf]
  | succ kk ih =>
    intro fuel index off hk hfail hprev
    cases fuel with
    | zero => omega
    | succ m =>
      obtain ⟨l, r, hlres, hrres, hcl, hcr⟩ := hprev 0 (Nat.succ_pos kk)
      have hcast0 : ((0 : ℕ) : ℤ) = 0 := rfl
      rw [hcast0, add_zero] at hlres hrres
      have hllen := hwf l (get_candle_mem data _ l hlres)
      have hrlen := hwf r (get_candle_mem data _ r hrres)
      have hclen := hwf c hcmem
      simp only [down_fractal_go, hlres, hrres, isEmpty_false_of_len hclen,
        isEmpty_false_of_len hllen, isEmpty_false_of_len hrlen, Bool.or_self,
        Bool.or_false, Bool.false_eq_true, if_false,
        decField_ok c 2 (by omega), decField_ok l 2 (by omega),
        decField_ok r 2 (by omega), exBind_ok]
      rw [if_neg (not_le.mpr hcl), if_neg (not_le.mpr hcr)]
      apply ih m index (off + 1) (by omega)
      · have e : (off + 1) + (kk : ℤ) = off + ((kk : ℤ) + 1) := by ring
        rw [e]
        push_cast at hfail
        exact hfail
      · intro j hj
        obtain ⟨l2, r2, h1, h2, h3, h4⟩ := hprev (j + 1) (by omega)
        refine ⟨l2, r2, ?_, ?_, h3, h4⟩
        · have e : (off + 1) + (j : ℤ) = off + ((j : ℤ) + 1) := by ring
          rw [e]
          push_cast at h1
          exact h1
        · have e : (off + 1) + (j : ℤ) = off + ((j : ℤ) + 1) := by ring
          rw [e]
          push_cast at h2
          exact h2

/-- C4 counterexample: on a two-candle series, is_up_fractal(0, 3) is
not None: the right neighbour index -1 does not fail but wraps to the
last candle under Python indexing, and here the check returns True. -/
theorem C4_counterexample :
    is_up_fractal exTwo 0 (some 3) = Except.ok (some true) ∧ 2 ≤ exTwo.length :=
  ⟨rfl, by decide⟩

/-- C4 (amended): with a valid odd width and an in-bounds centre, if at
some required offset a neighbour lookup actually fails under Python
indexing (index+o at or beyond the length, or index-o below -length,
so get_candle returns None there), and at every smaller offset both
neighbours resolve and pass the respective strict comparison, then the
fractal check returns None rather than False. Indices in [-length, -1]
resolve end-relatively and do not make the result None. -/
theorem C4_oob_neighbor (data : List Row) (hwf : WF data) (index cnt o : ℤ)
    (hcnt3 : 3 ≤ cnt) (hodd : cnt % 2 = 1)
    (hidx : 0 ≤ index ∧ index < data.length)
    (ho : 1 ≤ o ∧ o ≤ (cnt - 1) / 2)
    (hfail : get_candle data (index + o) = none ∨
      get_candle data (index - o) = none) :
    ((∀ p : ℤ, 1 ≤ p → p < o → ∃ l r,
        get_candle data (index + p) = some l ∧
        get_candle data (index - p) = some r ∧
        getField (rowAt data index) 3 < getField l 3 ∧
        getField (rowAt data index) 3 < getField r 3) →
      is_up_fractal data index (some cnt) = Except.ok none) ∧
    ((∀ p : ℤ, 1 ≤ p → p < o → ∃ l r,
        get_candle data (index + p) = some l ∧
        get_candle data (index - p) = some r ∧
        getField l 2 < getField (rowAt data index) 2 ∧
        getField r 2 < getField (rowAt data index) 2) →
      is_down_fractal data index (some cnt) = Except.ok none) := by
  obtain ⟨c, hcres, hcmem⟩ := get_candle_of_bounds data index hidx.1 hidx.2
  have hrowC : rowAt data index = c := by
    unfold rowAt
    rw [hcres]
    rfl
  have hguard : ¬ (cnt < 3 ∨ cnt % 2 = 0) := by omega
  have hkfuel : (o - 1).toNat < ((cnt - 1) / 2).toNat := by omega
  have hoEq : (1 : ℤ) + ((o - 1).toNat : ℤ) = o := by omega
  constructor
  · intro hprev
    simp only [is_up_fractal, hcres, defaultArg_some_ne cnt 3 (by omega),
      if_neg hguard]
    apply up_go_none data hwf c hcmem (o - 1).toNat ((cnt - 1) / 2).toNat
      index 1 hkfuel
    · rw [hoEq]
      exact hfail
    · intro j hj
      obtain ⟨l, r, h1, h2, h3, h4⟩ := hprev (1 + j) (by omega) (by omega)
      rw [hrowC] at h3 h4
      exact ⟨l, r, h1, h2, h3, h4⟩
  · intro hprev
    simp only [is_down_fractal, hcres, defaultArg_some_ne cnt 3 (by omega),
      if_neg hguard]
    apply down_go_none data hwf c hcmem (o - 1).toNat ((cnt - 1) / 2).toNat
      index 1 hkfuel
    · rw [hoEq]
      exact hfail
    · intro j hj
      obtain ⟨l, r, h1, h2, h3, h4⟩ := hprev (1 + j) (by omega) (by omega)
      rw [hrowC] at h3 h4
      exact ⟨l, r, h1, h2, h3, h4⟩

/-- C4 witness: a one-candle series, centre 0, width 3: the right
neighbour at index 1 is beyond the data, so both checks return None. -/
theorem C4_witness :
    is_up_fractal exBull 0 (some 3) = Except.ok none ∧
    is_down_fractal exBull 0 (some 3) = Except.ok none :=
  ⟨(C4_oob_neighbor exBull (by decide) 0 3 1 (by decide) (by decide)
      ⟨by decide, by decide⟩ ⟨by decide, by decide⟩
      (Or.inl (by decide))).1
      (fun p hp1 hp2 => absurd (lt_of_le_of_lt hp1 hp2) (by omega)),
    (C4_oob_neighbor exBull (by decide) 0 3 1 (by decide) (by decide)
      ⟨by decide, by decide⟩ ⟨by decide, by decide⟩
      (Or.inl (by decide))).2
      (fun p hp1 hp2 => absurd (lt_of_le_of_lt hp1 hp2) (by omega))⟩

lemma mapFields_highs (data : List Row) (h : ∀ r ∈ data, 2 < r.length) :
    mapFields data 2 = Except.ok (highsOf data) :=
  mapFields_ok data 2 h

lemma mapFields_lows (data : List Row) (h : ∀ r ∈ data, 3 < r.length) :
    mapFields data 3 = Except.ok (lowsOf data) :=
  mapFields_ok data 3 h

/-- C1 counterexample: two candles share the high price 5; with the
window restricted to the second candle only (start_index 1, count 1),
the claim requires the returned index to be 1, the only index inside
the window, but the full-sequence scan of list.index finds the equal
high at index 0, before the window. -/
theorem C1_counterexample :
    get_highest_high exTie (some 1) (some 1) = Except.ok (some 0) ∧
    (Except.ok (some 0) : Except Unit (Option ℕ)) ≠ Except.ok (some 1) ∧
    (0 : ℕ) < 1 :=
  ⟨rfl, by simp, by decide⟩

/-- C1 (amended): over a window wholly determined by 0 <= start_index
< length and 0 < count <= length, get_highest_high returns the
smallest index IN THE FULL SEQUENCE whose high equals the maximum high
over the window; that index may lie before start_index when an equal
high occurs earlier. get_lowest_low behaves symmetrically with the
minimum low. -/
theorem C1_extrema_full_scan (data : List Row) (hwf : WF data) (si cnt : ℤ)
    (hsi0 : 0 ≤ si) (hsiLen : si < data.length) (hcnt0 : 0 < cnt)
    (hcntLen : cnt ≤ data.length) :
    (∃ i m, get_highest_high data (some si) (some cnt) = Except.ok (some i) ∧
      m ∈ highsOf (pySlice data si (si + cnt)) ∧
      (∀ v ∈ highsOf (pySlice data si (si + cnt)), v ≤ m) ∧
      (highsOf data).get? i = some m ∧
      ∀ j, j < i → (highsOf data).get? j ≠ some m) ∧
    (∃ i m, get_lowest_low data si (some cnt) = Except.ok (some i) ∧
      m ∈ lowsOf (pySlice data si (si + cnt)) ∧
      (∀ v ∈ lowsOf (pySlice data si (si + cnt)), m ≤ v) ∧
      (lowsOf data).get? i = some m ∧
      ∀ j, j < i → (lowsOf data).get? j ≠ some m) := by
  have hw2 : ∀ r ∈ data, 2 < r.length := fun r hr => by have := hwf r hr; omega
  have hw3 : ∀ r ∈ data, 3 < r.length := fun r hr => by have := hwf r hr; omega
  have hcnt_ne : cnt ≠ 0 := by omega
  have hguard : ¬ ((data.length : ℤ) < cnt) := by omega
  have hfne : pySlice data si (si + cnt) ≠ [] :=
    pySlice_ne_nil data si cnt hsi0 hsiLen hcnt0
  have hfsub : ∀ r ∈ pySlice data si (si + cnt), r ∈ data :=
    pySlice_subset data si (si + cnt)
  have hfw2 : ∀ r ∈ pySlice data si (si + cnt), 2 < r.length :=
    fun r hr => hw2 r (hfsub r hr)
  have hfw3 : ∀ r ∈ pySlice data si (si + cnt), 3 < r.length :=
    fun r hr => hw3 r (hfsub r hr)
  constructor
  · have hne2 : highsOf (pySlice data si (si + cnt)) ≠ [] := by
      unfold highsOf
      simpa using hfne
    obtain ⟨m, hmax, hmem, hub⟩ :=
      pyMax_spec (highsOf (pySlice data si (si + cnt))) hne2
    have hmemData : m ∈ highsOf data := by
      obtain ⟨r, hr, hrm⟩ := List.mem_map.mp hmem
      exact List.mem_map.mpr ⟨r, hfsub r hr, hrm⟩
    obtain ⟨i, hli, hget, hleast⟩ := listIndex_spec (highsOf data) m hmemData
    refine ⟨i, m, ?_, hmem, hub, hget, hleast⟩
    simp only [get_highest_high, mapFields_highs data hw2, exBind_ok,
      defaultArg_some_zero, defaultArg_some_ne cnt _ hcnt_ne, if_neg hguard,
      mapFields_highs (pySlice data si (si + cnt)) hfw2, hmax, hli]
  · have hne3 : lowsOf (pySlice data si (si + cnt)) ≠ [] := by
      unfold lowsOf
      simpa using hfne
    obtain ⟨m, hmin, hmem, hlb⟩ :=
      pyMin_spec (lowsOf (pySlice data si (si + cnt))) hne3
    have hmemData : m ∈ lowsOf data := by
      obtain ⟨r, hr, hrm⟩ := List.mem_map.mp hmem
      exact List.mem_map.mpr ⟨r, hfsub r hr, hrm⟩
    obtain ⟨i, hli, hget, hleast⟩ := listIndex_spec (lowsOf data) m hmemData
    refine ⟨i, m, ?_, hmem, hlb, hget, hleast⟩
    simp only [get_lowest_low, mapFields_lows data hw3, exBind_ok,
      defaultArg_some_ne cnt _ hcnt_ne, if_neg hguard,
      mapFields_lows (pySlice data si (si + cnt)) hfw3, hmin, hli]

/-- C1 witness: the tied-highs series with the full window. -/
theorem C1_witness :
    (WF exTie ∧ (0 : ℤ) ≤ 0 ∧ (0 : ℤ) < exTie.length ∧ (0 : ℤ) < 2 ∧
      (2 : ℤ) ≤ exTie.length) ∧
    ((∃ i m, get_highest_high exTie (some 0) (some 2) = Except.ok (some i) ∧
      m ∈ highsOf (pySlice exTie 0 (0 + 2)) ∧
      (∀ v ∈ highsOf (pySlice exTie 0 (0 + 2)), v ≤ m) ∧
      (highsOf exTie).get? i = some m ∧
      ∀ j, j < i → (highsOf exTie).get? j ≠ some m) ∧
    (∃ i m, get_lowest_low exTie 0 (some 2) = Except.ok (some i) ∧
      m ∈ lowsOf (pySlice exTie 0 (0 + 2)) ∧
      (∀ v ∈ lowsOf (pySlice exTie 0 (0 + 2)), m ≤ v) ∧
      (lowsOf exTie).get? i = some m ∧
      ∀ j, j < i → (lowsOf exTie).get? j ≠ some m)) :=
  ⟨⟨by decide, by decide, by decide, by decide, by decide⟩,
    C1_extrema_full_scan exTie (by decide) 0 2 (by decide) (by decide)
      (by decide) (by decide)⟩

lemma pyMax_mem (xs : List ℚ) (m : ℚ) (h : pyMax xs = some m) : m ∈ xs := by
  cases xs with
  | nil => exact absurd h (by simp [pyMax])
  | cons x t =>
    obtain ⟨m2, h2, hmem, _⟩ := pyMax_spec (x :: t) (by simp)
    rw [h] at h2
    cases h2
    exact hmem

lemma pyMin_mem (xs : List ℚ) (m : ℚ) (h : pyMin xs = some m) : m ∈ xs := by
  cases xs with
  | nil => exact absurd h (by simp [pyMin])
  | cons x t =>
    obtain ⟨m2, h2, hmem, _⟩ := pyMin_spec (x :: t) (by simp)
    rw [h] at h2
    cases h2
    exact hmem

lemma up_go_total (data : List Row) (hwf : WF data) (candle : Option Row)
    (hcand : ∀ c, candle = some c → c ∈ data) :
    ∀ (fuel : ℕ) (index off : ℤ),
      ∃ v, up_fractal_go data candle index off fuel = Except.ok v := by
  intro fuel
  induction fuel with
  | zero =>
    intro index off
    exact ⟨some true, rfl⟩
  | succ n ih =>
    intro index off
    cases hcd : candle with
    | none => exact ⟨none, rfl⟩
    | some c =>
      have hcmem := hcand c hcd
      cases hl : get_candle data (index + off) with
      | none =>
        refine ⟨none, ?_⟩
        simp only [up_fractal_go, hl]
      | some l =>
        cases hr : get_candle data (index - off) with
        | none =>
          refine ⟨none, ?_⟩
          simp only [up_fractal_go, hl, hr]
        | some r =>
          have hclen := hwf c hcmem
          have hllen := hwf l (get_candle_mem data _ l hl)
          have hrlen := hwf r (get_candle_mem data _ r hr)
          simp only [up_fractal_go, hl, hr, isEmpty_false_of_len hclen,
            isEmpty_false_of_len hllen, isEmpty_false_of_len hrlen,
            Bool.or_self, Bool.or_false, Bool.false_eq_true, if_false,
            decField_ok c 3 (by omega), decField_ok l 3 (by omega),
            decField_ok r 3 (by omega), exBind_ok]
          by_cases h1 : getField l 3 ≤ getField c 3
          · exact ⟨some false, by rw [if_pos h1]⟩
          · by_cases h2 : getField r 3 ≤ getField c 3
            · exact ⟨some false, by rw [if_neg h1, if_pos h2]⟩
            · rw [if_neg h1, if_neg h2, ← hcd]
              exact ih index (off + 1)

lemma down_go_total (data : List Row) (hwf : WF data) (candle : Option Row)
    (hcand : ∀ c, candle = some c → c ∈ data) :
    ∀ (fuel : ℕ) (index off : ℤ),
      ∃ v, down_fractal_go data candle index off fuel = Except.ok v := by
  intro fuel
  induction fuel with
  | zero =>
    intro index off
    exact ⟨some true, rfl⟩
  | succ n ih =>
    intro index off
    cases hcd : candle with
    | none => exact ⟨none, rfl⟩
    | some c =>
      have hcmem := hcand c hcd
      cases hl : get_candle data (index + off) with
      | none =>
        refine ⟨none, ?_⟩
        simp only [down_fractal_go, hl]
      | some l =>
        cases hr : get_candle data (index - off) with
        | none =>
          refine ⟨none, ?_⟩
          simp only [down_fractal_go, hl, hr]
        | some r =>
          have hclen := hwf c hcmem
          have hllen := hwf l (get_candle_mem data _ l hl)
          have hrlen := hwf r (get_candle_mem data _ r hr)
          simp only [down_fractal_go, hl, hr, isEmpty_false_of_len hclen,
            isEmpty_false_of_len hllen, isEmpty_false_of_len hrlen,
            Bool.or_self, Bool.or_false, Bool.false_eq_true, if_false,
            decField_ok c 2 (by omega), decField_ok l 2 (by omega),
            decField_ok r 2 (by omega), exBind_ok]
          by_cases h1 : getField c 2 ≤ getField l 2
          · exact ⟨some false, by rw [if_pos h1]⟩
          · by_cases h2 : getField c 2 ≤ getField r 2
            · exact ⟨some false, by rw [if_neg h1, if_pos h2]⟩
            · rw [if_neg h1, if_neg h2, ← hcd]
              exact ih index (off + 1)

lemma get_highest_high_total (data : List Row) (hwf : WF data)
    (siOpt cntOpt : Option ℤ) :
    ∃ v, get_highest_high data siOpt cntOpt = Except.ok v := by
  have hw2 : ∀ r ∈ data, 2 < r.length := fun r hr => by have := hwf r hr; omega
  simp only [get_highest_high, mapFields_highs data hw2, exBind_ok]
  by_cases hg : (data.length : ℤ) < defaultArg cntOpt data.length
  · rw [if_pos hg]
    exact ⟨none, rfl⟩
  · rw [if_neg hg]
    have hfsub := pySlice_subset data (defaultArg siOpt 0)
      (defaultArg siOpt 0 + defaultArg cntOpt data.length)
    have hfw2 : ∀ r ∈ pySlice data (defaultArg siOpt 0)
        (defaultArg siOpt 0 + defaultArg cntOpt data.length), 2 < r.length :=
      fun r hr => hw2 r (hfsub r hr)
    rw [mapFields_highs _ hfw2, exBind_ok]
    cases hpm : pyMax (highsOf (pySlice data (defaultArg siOpt 0)
        (defaultArg siOpt 0 + defaultArg cntOpt data.length))) with
    | none =>
      refine ⟨none, ?_⟩
      simp only [hpm]
    | some m =>
      have hmemData : m ∈ highsOf data := by
        obtain ⟨r, hr, hrm⟩ := List.mem_map.mp (pyMax_mem _ m hpm)
        exact List.mem_map.mpr ⟨r, hfsub r hr, hrm⟩
      obtain ⟨i, hli, _, _⟩ := listIndex_spec (highsOf data) m hmemData
      refine ⟨some i, ?_⟩
      simp only [hpm, hli, exBind_ok]

lemma get_lowest_low_total (data : List Row) (hwf : WF data)
    (si : ℤ) (cntOpt : Option ℤ) :
    ∃ v, get_lowest_low data si cntOpt = Except.ok v := by
  have hw3 : ∀ r ∈ data, 3 < r.length := fun r hr => by have := hwf r hr; omega
  simp only [get_lowest_low, mapFields_lows data hw3, exBind_ok]
  by_cases hg : (data.length : ℤ) < defaultArg cntOpt data.length
  · rw [if_pos hg]
    exact ⟨none, rfl⟩
  · rw [if_neg hg]
    have hfsub := pySlice_subset data si (si + defaultArg cntOpt data.length)
    have hfw3 : ∀ r ∈ pySlice data si (si + defaultArg cntOpt data.length),
        3 < r.length := fun r hr => hw3 r (hfsub r hr)
    rw [mapFields_lows _ hfw3, exBind_ok]
    cases hpm : pyMin (lowsOf (pySlice data si
        (si + defaultArg cntOpt data.length))) with
    | none =>
      refine ⟨none, ?_⟩
      simp only [hpm]
    | some m =>
      have hmemData : m ∈ lowsOf data := by
        obtain ⟨r, hr, hrm⟩ := List.mem_map.mp (pyMin_mem _ m hpm)
        exact List.mem_map.mpr ⟨r, hfsub r hr, hrm⟩
      obtain ⟨i, hli, _, _⟩ := listIndex_spec (lowsOf data) m hmemData
      refine ⟨some i, ?_⟩
      simp only [hpm, hli, exBind_ok]

/-- C9: over well-formed cached data, every query operation returns
normally: an Except.ok carrying either a value or None, for all
integer arguments; no uncaught Python exception (Except.error) is
possible. get_candle is total by construction in the embedding, the
IndexError being caught inside it. -/
theorem C9_no_exceptions (data : List Row) (hwf : WF data) :
    (∀ index : ℤ, ∃ v, is_candle_bullish data index = Except.ok v) ∧
    (∀ index : ℤ, ∃ v, is_candle_bearish data index = Except.ok v) ∧
    (∀ siOpt cntOpt : Option ℤ,
      ∃ v, get_highest_high data siOpt cntOpt = Except.ok v) ∧
    (∀ (si : ℤ) (cntOpt : Option ℤ),
      ∃ v, get_lowest_low data si cntOpt = Except.ok v) ∧
    (∀ (index : ℤ) (cntOpt : Option ℤ),
      ∃ v, is_up_fractal data index cntOpt = Except.ok v) ∧
    (∀ (index : ℤ) (cntOpt : Option ℤ),
      ∃ v, is_down_fractal data index cntOpt = Except.ok v) := by
  refine ⟨?_, ?_, fun siOpt cntOpt => get_highest_high_total data hwf siOpt cntOpt,
    fun si cntOpt => get_lowest_low_total data hwf si cntOpt, ?_, ?_⟩
  · intro index
    cases hc : get_candle data index with
    | none =>
      refine ⟨none, ?_⟩
      unfold is_candle_bullish
      rw [hc]
    | some c =>
      exact ⟨some (decide (getField c 1 < getField c 4)),
        is_candle_bullish_some data index c hc (hwf c (get_candle_mem data index c hc))⟩
  · intro index
    cases hc : get_candle data index with
    | none =>
      refine ⟨none, ?_⟩
      unfold is_candle_bearish
      rw [hc]
    | some c =>
      exact ⟨some (decide (getField c 4 < getField c 1)),
        is_candle_bearish_some data index c hc (hwf c (get_candle_mem data index c hc))⟩
  · intro index cntOpt
    by_cases hg : defaultArg cntOpt 3 < 3 ∨ defaultArg cntOpt 3 % 2 = 0
    · refine ⟨none, ?_⟩
      simp only [is_up_fractal, if_pos hg]
    · obtain ⟨v, hv⟩ := up_go_total data hwf (get_candle data index)
        (fun c hc => get_candle_mem data index c hc)
        ((defaultArg cntOpt 3 - 1) / 2).toNat index 1
      refine ⟨v, ?_⟩
      simp only [is_up_fractal, if_neg hg]
      exact hv
  · intro index cntOpt
    by_cases hg : defaultArg cntOpt 3 < 3 ∨ defaultArg cntOpt 3 % 2 = 0
    · refine ⟨none, ?_⟩
      simp only [is_down_fractal, if_pos hg]
    · obtain ⟨v, hv⟩ := down_go_total data hwf (get_candle data index)
        (fun c hc => get_candle_mem data index c hc)
        ((defaultArg cntOpt 3 - 1) / 2).toNat index 1
      refine ⟨v, ?_⟩
      simp only [is_down_fractal, if_neg hg]
      exact hv

/-- C9 witness: the three-candle series with sample arguments. -/
theorem C9_witness :
    WF exUp3 ∧
    (∃ v, is_candle_bullish exUp3 0 = Except.ok v) ∧
    (∃ v, get_highest_high exUp3 none none = Except.ok v) ∧
    (∃ v, is_up_fractal exUp3 0 none = Except.ok v) :=
  ⟨by decide, (C9_no_exceptions exUp3 (by decide)).1 0,
    (C9_no_exceptions exUp3 (by decide)).2.2.1 none none,
    (C9_no_exceptions exUp3 (by decide)).2.2.2.2.1 0 none⟩

/-- C10 witness: index -1 on a two-candle series resolves to position 1. -/
theorem C10_witness :
    (-(exTwo.length : ℤ) ≤ -1 ∧ (-1 : ℤ) ≤ -1) ∧
    (get_candle exTwo (-1) = exTwo.get? ((exTwo.length : ℤ) + -1).toNat ∧
      (get_candle exTwo (-1)).isSome = true) :=
  ⟨⟨by decide, by decide⟩,
    (C10_negative_indexing exTwo (-1)).1 ⟨by decide, by decide⟩⟩

end Plutus
